import Mathlib

/-!
Verification of `octopus_price_bot.py`: a price-alert bot consisting of a
regex-based price extractor (`extract_price_from_text`) and a
threshold-crossing-with-hysteresis alert state machine (`check_price`).

Prices are modelled as rationals (`ℚ`).  The persisted state record is a
JSON dictionary; per commodity it holds a `last_*_price` entry (nullable
number) and a `*_notified` entry (boolean, possibly missing from the
dictionary, in which case `state.get(key, False)` reads it as `False`).
We model the per-commodity projection of that record: `notified` is an
`Option Bool` so that a missing dictionary key (`none`) is distinguished
from a stored `False` (`some false`).
-/

/-! ### Data model and alert state machine -/

/-- Per-commodity projection of the persisted state dictionary of
`octopus_price_bot.py` (`load_state` / `check_price`): `last_price`
models the `last_electricity_price` / `last_gas_price` entry and
`notified` models the `electricity_notified` / `gas_notified` entry,
with `none` standing for a missing dictionary key. -/
structure MonitorState where
  last_price : Option ℚ
  notified : Option Bool
  deriving DecidableEq, Repr

/-- The state produced by `load_state()` when no `state.json` exists:
`last_*_price = None`, `*_notified = False`. -/
def initialState : MonitorState := { last_price := none, notified := some false }

/-- The alert state machine of `check_price` (lines 132-162 of
`octopus_price_bot.py`), per commodity, with the two collaborators
abstracted: `price` is the observation returned by
`fetch_price_by_scraping` (`none` models Python `None`) and `deliver`
is the success/failure result `send_telegram_message` would report if
called.  Returns the updated state together with a flag recording
whether a notification attempt (a call to `send_telegram_message`) was
made:

- `price is None` → state returned unchanged, no attempt (lines 132-134);
- otherwise `last_price` is updated (lines 140-145), and then
  - `price < target ∧ ¬ state.get(notified_key, False)` → attempt
    delivery; on success set the notified flag (lines 149-153);
  - `price ≥ target ∧ state.get(notified_key, False)` → clear the
    notified flag (lines 154-156);
  - otherwise no further change. -/
def check_price (deliver : Bool) (price : Option ℚ) (target_price : ℚ)
    (state : MonitorState) : MonitorState × Bool :=
  match price with
  | none => (state, false)
  | some p =>
    let state1 : MonitorState := { state with last_price := some p }
    if p < target_price ∧ state1.notified.getD false = false then
      if deliver then ({ state1 with notified := some true }, true)
      else (state1, true)
    else if target_price ≤ p ∧ state1.notified.getD false = true then
      ({ state1 with notified := some false }, false)
    else (state1, false)

/-- One scheduled run per list element: fold `check_price` over a list of
`(observation, delivery result)` pairs, accumulating the number of
notification attempts. -/
def runSequence (target_price : ℚ) (start : MonitorState)
    (steps : List (Option ℚ × Bool)) : MonitorState × Nat :=
  steps.foldl
    (fun acc st =>
      let r := check_price st.2 st.1 target_price acc.1
      (r.1, acc.2 + (if r.2 then 1 else 0)))
    (start, 0)

/-- The state reached from `initialState` after a list of
`(observation, delivery result)` steps. -/
def reachedState (target_price : ℚ) (steps : List (Option ℚ × Bool)) :
    MonitorState :=
  (runSequence target_price initialState steps).1

/-- The notification-attempt trace: for each step, whether
`check_price` attempted a delivery. -/
def attemptTrace (target_price : ℚ) (start : MonitorState)
    (steps : List (Option ℚ × Bool)) : List Bool :=
  match steps with
  | [] => []
  | st :: rest =>
    let r := check_price st.2 st.1 target_price start
    r.2 :: attemptTrace target_price r.1 rest

/-- The state evolution of a sequence of runs, ignoring the attempt
count (the state component of `runSequence`). -/
def runStates (target_price : ℚ) (s : MonitorState) :
    List (Option ℚ × Bool) → MonitorState
  | [] => s
  | st :: rest => runStates target_price (check_price st.2 st.1 target_price s).1 rest

/-! ### The price extractor

`extract_price_from_text` (lines 54-97 of `octopus_price_bot.py`)
applies an ordered list of Python regular expressions to the lowercased
input text and returns the first successfully parsed capture.  We embed
the regex dialect fragment those patterns use as a small backtracking
matcher whose result list is ordered by Python `re` backtracking
priority: greedy quantifiers try the longest repetition first, and
`re.search` tries start positions from the left. -/

/-- The fragment of Python regex syntax used by the patterns of
`extract_price_from_text`: literal characters, the classes `\d`, `\s`,
`[.,]` and `[^c]`, sequencing, greedy `?`, greedy `*`, and a capturing
group.  The classes `\d` and `\s` are modelled at ASCII
(`Char.isDigit` / `isSpaceChar`), on which Python's Unicode classes
coincide for every text in scope. -/
inductive Re where
  | eps : Re
  | chr : Char → Re
  | digit : Re
  | ws : Re
  | anyOf : List Char → Re
  | notChr : Char → Re
  | seq : Re → Re → Re
  | opt : Re → Re
  | star : Re → Re
  | group : Re → Re
  deriving DecidableEq, Repr

/-- Greedy `+` is one occurrence followed by greedy `*`. -/
def Re.plus (a : Re) : Re := .seq a (.star a)

/-- Python `\s` on the texts in scope: ASCII whitespace. -/
def isSpaceChar (c : Char) : Bool :=
  c = ' ' ∨ c = '\t' ∨ c = '\n' ∨ c = '\r' ∨ c = '\x0b' ∨ c = '\x0c'

/-- Greedy iteration of a pattern element: try the longest run of
repetitions first, with the empty repetition as the last alternative;
a repetition that consumes no input stops the iteration (as in Python,
which does not repeat an empty match).  `n` bounds the number of
repetitions; every further repetition consumes at least one character,
so `n = s.length` makes the bound inert. -/
def runRep (runA : List Char → List (List Char × Option (List Char))) :
    Nat → List Char → List (List Char × Option (List Char))
  | 0, s => [(s, none)]
  | n + 1, s =>
    ((runA s).flatMap fun rc =>
      if rc.1.length < s.length then
        (runRep runA n rc.1).map fun rc2 => (rc2.1, rc.2 <|> rc2.2)
      else [rc]) ++ [(s, none)]

/-- All ways a regex can match a prefix of `s`, in Python backtracking
priority order; each result is the remaining suffix paired with the
capture of the (single) group, if the group participated. -/
def Re.run : Re → List Char → List (List Char × Option (List Char))
  | .eps, s => [(s, none)]
  | .chr _, [] => []
  | .chr c, x :: xs => if x = c then [(xs, none)] else []
  | .digit, [] => []
  | .digit, x :: xs => if x.isDigit then [(xs, none)] else []
  | .ws, [] => []
  | .ws, x :: xs => if isSpaceChar x then [(xs, none)] else []
  | .anyOf _, [] => []
  | .anyOf l, x :: xs => if x ∈ l then [(xs, none)] else []
  | .notChr _, [] => []
  | .notChr c, x :: xs => if x ≠ c then [(xs, none)] else []
  | .seq a b, s =>
    (a.run s).flatMap fun rc =>
      (b.run rc.1).map fun rc2 => (rc2.1, rc.2 <|> rc2.2)
  | .opt a, s => a.run s ++ [(s, none)]
  | .star a, s => runRep a.run s.length s
  | .group a, s =>
    (a.run s).map fun rc => (rc.1, some (s.take (s.length - rc.1.length)))

/-- Python `re.search`: try each start position from the left; at the
first position where the pattern matches, return the priority-first
match's group capture.  `none` = no match anywhere; `some c` = matched,
with group capture `c`. -/
def Re.search (re : Re) : List Char → Option (Option (List Char))
  | [] => ((re.run []).head?).map Prod.snd
  | x :: t =>
    match (re.run (x :: t)).head? with
    | some rc => some rc.2
    | none => re.search t

/-- Concatenation of a list of regex pieces. -/
def Re.cat (l : List Re) : Re := l.foldr .seq .eps

/-- The capture group `(\d+[.,]\d+)`: a decimal numeral with digits on
both sides of a `.` or `,` separator. -/
def numeralRe : Re :=
  .group (.seq (Re.plus .digit) (.seq (.anyOf [',', '.']) (Re.plus .digit)))

/-- `\s*` -/
def wsStar : Re := .star .ws

/-- `(?:\s*<!--[^>]*-->)?`: the optional inline comment fragment the
first four patterns of each kind allow between the numeral and the
unit. -/
def commentOpt : Re :=
  .opt (Re.cat [wsStar, .chr '<', .chr '!', .chr '-', .chr '-',
    .star (.notChr '>'), .chr '-', .chr '-', .chr '>'])

/-- Regex `(\d+[.,]\d+)(?:\s*<!--[^>]*-->)?\s*€\s*/?\s*k? ?wh` (line 74). -/
def elec1 : Re :=
  Re.cat [numeralRe, commentOpt, wsStar, .chr '€', wsStar,
    .opt (.chr '/'), wsStar, .opt (.chr 'k'), .opt (.chr ' '),
    .chr 'w', .chr 'h']

/-- Regex `€\s*(\d+[.,]\d+)(?:\s*<!--[^>]*-->)?\s*/?\s*k? ?wh` (line 75). -/
def elec2 : Re :=
  Re.cat [.chr '€', wsStar, numeralRe, commentOpt, wsStar,
    .opt (.chr '/'), wsStar, .opt (.chr 'k'), .opt (.chr ' '),
    .chr 'w', .chr 'h']

/-- Regex `(\d+[.,]\d+)(?:\s*<!--[^>]*-->)?\s*€/kWh` (line 76); the `W`
is uppercase in the source. -/
def elec3 : Re :=
  Re.cat [numeralRe, commentOpt, wsStar, .chr '€', .chr '/',
    .chr 'k', .chr 'W', .chr 'h']

/-- Regex `(\d+[.,]\d+)(?:\s*<!--[^>]*-->)?\s*€/kW` (line 77); the `W`
is uppercase in the source. -/
def elec4 : Re :=
  Re.cat [numeralRe, commentOpt, wsStar, .chr '€', .chr '/',
    .chr 'k', .chr 'W']

/-- Regex `(\d+[.,]\d+)\s*€\s*/?\s*k? ?wh` (line 78). -/
def elec5 : Re :=
  Re.cat [numeralRe, wsStar, .chr '€', wsStar, .opt (.chr '/'),
    wsStar, .opt (.chr 'k'), .opt (.chr ' '), .chr 'w', .chr 'h']

/-- Regex `€\s*(\d+[.,]\d+)\s*/?\s*k? ?wh` (line 79). -/
def elec6 : Re :=
  Re.cat [.chr '€', wsStar, numeralRe, wsStar, .opt (.chr '/'),
    wsStar, .opt (.chr 'k'), .opt (.chr ' '), .chr 'w', .chr 'h']

/-- Regex `(\d+[.,]\d+)\s*€/kWh` (line 80); uppercase `W`. -/
def elec7 : Re :=
  Re.cat [numeralRe, wsStar, .chr '€', .chr '/', .chr 'k', .chr 'W',
    .chr 'h']

/-- Regex `(\d+[.,]\d+)\s*€/kW` (line 81); uppercase `W`. -/
def elec8 : Re :=
  Re.cat [numeralRe, wsStar, .chr '€', .chr '/', .chr 'k', .chr 'W']

/-- The electricity pattern list (lines 73-82), in declared order. -/
def electricity_patterns : List Re :=
  [elec1, elec2, elec3, elec4, elec5, elec6, elec7, elec8]

/-- Regex `(\d+[.,]\d+)(?:\s*<!--[^>]*-->)?\s*€\s*/?\s*s?mc` (line 62). -/
def gas1 : Re :=
  Re.cat [numeralRe, commentOpt, wsStar, .chr '€', wsStar,
    .opt (.chr '/'), wsStar, .opt (.chr 's'), .chr 'm', .chr 'c']

/-- Regex `€\s*(\d+[.,]\d+)(?:\s*<!--[^>]*-->)?\s*/?\s*s?mc` (line 63). -/
def gas2 : Re :=
  Re.cat [.chr '€', wsStar, numeralRe, commentOpt, wsStar,
    .opt (.chr '/'), wsStar, .opt (.chr 's'), .chr 'm', .chr 'c']

/-- Regex `(\d+[.,]\d+)(?:\s*<!--[^>]*-->)?\s*€/smc` (line 64). -/
def gas3 : Re :=
  Re.cat [numeralRe, commentOpt, wsStar, .chr '€', .chr '/',
    .chr 's', .chr 'm', .chr 'c']

/-- Regex `(\d+[.,]\d+)(?:\s*<!--[^>]*-->)?\s*€/mc` (line 65). -/
def gas4 : Re :=
  Re.cat [numeralRe, commentOpt, wsStar, .chr '€', .chr '/',
    .chr 'm', .chr 'c']

/-- Regex `(\d+[.,]\d+)\s*€\s*/?\s*s?mc` (line 66). -/
def gas5 : Re :=
  Re.cat [numeralRe, wsStar, .chr '€', wsStar, .opt (.chr '/'),
    wsStar, .opt (.chr 's'), .chr 'm', .chr 'c']

/-- Regex `€\s*(\d+[.,]\d+)\s*/?\s*s?mc` (line 67). -/
def gas6 : Re :=
  Re.cat [.chr '€', wsStar, numeralRe, wsStar, .opt (.chr '/'),
    wsStar, .opt (.chr 's'), .chr 'm', .chr 'c']

/-- Regex `(\d+[.,]\d+)\s*€/smc` (line 68). -/
def gas7 : Re :=
  Re.cat [numeralRe, wsStar, .chr '€', .chr '/', .chr 's', .chr 'm',
    .chr 'c']

/-- Regex `(\d+[.,]\d+)\s*€/mc` (line 69). -/
def gas8 : Re :=
  Re.cat [numeralRe, wsStar, .chr '€', .chr '/', .chr 'm', .chr 'c']

/-- The gas pattern list (lines 61-70), in declared order. -/
def gas_patterns : List Re :=
  [gas1, gas2, gas3, gas4, gas5, gas6, gas7, gas8]

/-- The generic fallback regex `(\d+[.,]\d+)\s*€` (line 94): first
decimal number followed by the currency symbol, kind-agnostic. -/
def fallbackRe : Re := Re.cat [numeralRe, wsStar, .chr '€']

/-- The pattern list chosen by `price_type` (lines 59-82): any kind
other than `"gas"` (including the default `"electricity"`) uses the
electricity patterns. -/
def patterns_for (price_type : String) : List Re :=
  if price_type = "gas" then gas_patterns else electricity_patterns

/-- `lower = text.lower()` (line 84), as a character list; the texts in
scope contain only characters whose lowercasing is basic-latin. -/
def lowerText (text : String) : List Char :=
  text.data.map Char.toLower

/-- The numeric value of a digit string, most significant digit first. -/
def digitsToNat (l : List Char) : Nat :=
  l.foldl (fun n c => 10 * n + (c.toNat - 48)) 0

/-- Split a character list at its first `.`, if any. -/
def splitDot : List Char → Option (List Char × List Char)
  | [] => none
  | c :: rest =>
    if c = '.' then some ([], rest)
    else (splitDot rest).map fun pr => (c :: pr.1, pr.2)

/-- Python `float` restricted to the strings reachable here (captures of
`(\d+[.,]\d+)` after `,` → `.` normalization): digits with at most one
`.` separator and digits on both sides of it; anything else raises
`ValueError`, modelled as `none`. -/
def parseFloat (s : List Char) : Option ℚ :=
  match splitDot s with
  | none =>
    if s ≠ [] ∧ s.all Char.isDigit then some (mkRat (digitsToNat s) 1)
    else none
  | some (a, b) =>
    if a ≠ [] ∧ b ≠ [] ∧ a.all Char.isDigit ∧ b.all Char.isDigit then
      some (mkRat (digitsToNat a * 10 ^ b.length + digitsToNat b)
        (10 ^ b.length))
    else none

/-- `num = m.group(1).replace(",", ".")` (line 88): normalize the
fractional separator to a period before parsing. -/
def normalizeSep (l : List Char) : List Char :=
  l.map fun c => if c = ',' then '.' else c

/-- The pattern loop of `extract_price_from_text` (lines 85-92): search
each pattern in order; on a match, normalize the separator in the first
capture group and parse it, returning the parsed value; a parse failure
is caught by the bare `except:` and the next pattern is tried.  A match
whose `group(1)` did not participate would raise `AttributeError` on
`.replace` outside the `try`, modelled as `Except.error ()`;
exhausting the list falls through to the generic fallback. -/
def patternLoop (lower : List Char) : List Re → Except Unit (Option ℚ)
  | [] => .ok none
  | p :: ps =>
    match p.search lower with
    | none => patternLoop lower ps
    | some none => .error ()
    | some (some g) =>
      match parseFloat (normalizeSep g) with
      | some v => .ok (some v)
      | none => patternLoop lower ps

/-- `extract_price_from_text(text, price_type)` (lines 54-97): choose
the pattern list for the commodity kind, lowercase the text, run the
pattern loop, and if no pattern produced a value, try the generic
fallback; the fallback's `float` call (line 96) is not wrapped in a
`try`, so its failure would be an uncaught exception, modelled as
`Except.error ()`.  Returns `Except.ok none` when nothing matches. -/
def extract_price_from_text (text : String) (price_type : String) :
    Except Unit (Option ℚ) :=
  let patterns := patterns_for price_type
  let lower := lowerText text
  match patternLoop lower patterns with
  | .error e => .error e
  | .ok (some v) => .ok (some v)
  | .ok none =>
    match fallbackRe.search lower with
    | none => .ok none
    | some none => .error ()
    | some (some g) =>
      match parseFloat (normalizeSep g) with
      | some v => .ok (some v)
      | none => .error ()

instance {α β : Type} [DecidableEq α] [DecidableEq β] :
    DecidableEq (Except α β) := fun a b =>
  match a, b with
  | .error x, .error y =>
    if h : x = y then isTrue (by rw [h])
    else isFalse (by intro hc; cases hc; exact h rfl)
  | .ok x, .ok y =>
    if h : x = y then isTrue (by rw [h])
    else isFalse (by intro hc; cases hc; exact h rfl)
  | .error _, .ok _ => isFalse fun hc => Except.noConfusion hc
  | .ok _, .error _ => isFalse fun hc => Except.noConfusion hc

/-! ### Sample inputs used by the concrete test scenarios -/

/-- The commodity-kind argument for electricity (the default). -/
def elecKind : String := "electricity"

/-- The commodity-kind argument for gas. -/
def gasKind : String := "gas"

def textCommaKWh : String := "0,1067 €/kWh"

def textPeriodKWh : String := "0.1067 €/kWh"

def textCommaSmc : String := "0,1067 €/Smc"

def textPeriodSmc : String := "0.1067 €/Smc"

def textCommentKWh : String := "0.1067<!-- -->€/kWh"

def textCommentKW : String := "0.1067<!-- -->€/kW"

def textCommentSmc : String := "0.8567<!-- -->€/Smc"

def textCommentMc : String := "0.8567<!-- -->€/mc"

/-- A text whose first numeral is matched by the generic fallback only,
while a later numeral is matched by the strict first electricity
pattern. -/
def textStrictVsFallback : String := "9,9 € 0,1 €/kWh"

/-! ### Separator symmetry (for the `,` / `.` normalization claim) -/

/-- Swap the two fractional-separator characters; all other characters
are fixed. -/
def swapSep (c : Char) : Char :=
  if c = ',' then '.' else if c = '.' then ',' else c

/-- Swap the separators in a whole character list. -/
def swapSepL (l : List Char) : List Char := l.map swapSep

/-- Swap the separators in a string. -/
def swapSepS (s : String) : String := ⟨swapSepL s.data⟩

/-- Swap the separators in a single matcher result. -/
def swapResult (rc : List Char × Option (List Char)) :
    List Char × Option (List Char) :=
  (swapSepL rc.1, rc.2.map swapSepL)

/-- A regex is separator-symmetric when its character atoms never
mention `.` or `,` except through a class closed under `swapSep`.
Every pattern of `extract_price_from_text` is separator-symmetric. -/
def Re.sepSym : Re → Bool
  | .eps => true
  | .chr c => decide (c ≠ ',' ∧ c ≠ '.')
  | .digit => true
  | .ws => true
  | .anyOf l => decide ((',' ∈ l) ↔ ('.' ∈ l))
  | .notChr c => decide (c ≠ ',' ∧ c ≠ '.')
  | .seq a b => a.sepSym && b.sepSym
  | .opt a => a.sepSym
  | .star a => a.sepSym
  | .group a => a.sepSym

/-! ### Capture soundness (for the totality and ordering claims) -/

/-- A regex containing no capture group. -/
def Re.noGroup : Re → Bool
  | .eps | .chr _ | .digit | .ws | .anyOf _ | .notChr _ => true
  | .seq a b => a.noGroup && b.noGroup
  | .opt a => a.noGroup
  | .star a => a.noGroup
  | .group _ => false

/-- A regex whose capture group is exactly `numeralRe` and participates
in every match (it is not under a quantifier).  All seventeen patterns
and the fallback satisfy this. -/
def Re.oneNumGroup : Re → Bool
  | .group a => decide (Re.group a = numeralRe)
  | .seq a b => (a.oneNumGroup && b.noGroup) || (a.noGroup && b.oneNumGroup)
  | _ => false

/-- The value a single pattern contributes: search, then parse the
normalized capture (`none` when the pattern does not match or its
numeral does not parse). -/
def searchValue (lower : List Char) (p : Re) : Option ℚ :=
  (p.search lower).bind fun c => c.bind fun g => parseFloat (normalizeSep g)

/-- The shape of every string the group `(\d+[.,]\d+)` can capture:
digits on both sides of a single `,` or `.` separator. -/
def ShapedNumeral (g : List Char) : Prop :=
  ∃ d1 sep d2, g = d1 ++ sep :: d2 ∧ d1 ≠ [] ∧ d2 ≠ [] ∧
    d1.all Char.isDigit = true ∧ d2.all Char.isDigit = true ∧
    (sep = ',' ∨ sep = '.')

/-! ## Theorems -/

/-! ### Alert state machine -/

/-- C1: the sequence `[0.05, 0.05, 0.12, 0.05]` against threshold `0.11`
with always-succeeding delivery, from the initial Armed state, makes
exactly two notification attempts: one on the first `0.05` and one on
the final `0.05` after the `0.12` recovery. -/
theorem c1_hysteresis_two_attempts :
    (runSequence 0.11 initialState
      [(some 0.05, true), (some 0.05, true), (some 0.12, true),
        (some 0.05, true)]).2 = 2 ∧
    attemptTrace 0.11 initialState
      [(some 0.05, true), (some 0.05, true), (some 0.12, true),
        (some 0.05, true)] = [true, false, false, true] := by
  have h5 : (0.05 : ℚ) = mkRat 5 100 := by norm_num [Rat.mkRat_eq_div]
  have h11 : (0.11 : ℚ) = mkRat 11 100 := by norm_num [Rat.mkRat_eq_div]
  have h12 : (0.12 : ℚ) = mkRat 12 100 := by norm_num [Rat.mkRat_eq_div]
  rw [h5, h11, h12]
  decide

/-- C3: an absent observation returns the prior state unchanged and makes
no notification attempt, for every delivery collaborator, threshold and
prior state. -/
theorem c3_absent_observation_unchanged (deliver : Bool) (t : ℚ)
    (s : MonitorState) : check_price deliver none t s = (s, false) := rfl

/-- C4: for an observation below the threshold with the notified flag
read as `False`, a failed delivery leaves the notified flag untouched
(only `last_price` is updated) while a successful delivery sets it;
either way a notification attempt is made. -/
theorem c4_failed_delivery_keeps_armed (p t : ℚ) (s : MonitorState)
    (h1 : p < t) (h2 : s.notified.getD false = false) :
    check_price false (some p) t s = ({ s with last_price := some p }, true) ∧
    check_price true (some p) t s =
      ({ s with last_price := some p, notified := some true }, true) := by
  constructor <;> simp [check_price, h1, h2]

theorem c4_failed_delivery_keeps_armed_witness :
    check_price false (some 0.05) 0.11 initialState =
      ({ initialState with last_price := some 0.05 }, true) ∧
    check_price true (some 0.05) 0.11 initialState =
      ({ initialState with last_price := some 0.05, notified := some true },
        true) :=
  c4_failed_delivery_keeps_armed 0.05 0.11 initialState (by norm_num) rfl

/-- C5: `check_price` is idempotent on an already-updated state: a second
evaluation of the same present observation, with always-succeeding
delivery, leaves the state unchanged and makes no further attempt. -/
theorem c5_idempotent_second_evaluation (p t : ℚ) (s : MonitorState) :
    check_price true (some p) t (check_price true (some p) t s).1 =
      ((check_price true (some p) t s).1, false) := by
  rcases s with ⟨lp, n⟩
  by_cases h1 : p < t
  · have h1' : ¬ t ≤ p := not_le.mpr h1
    by_cases h2 : n.getD false = false <;> simp [check_price, h1, h1', h2]
  · have h1' : t ≤ p := le_of_not_lt h1
    by_cases h2 : n.getD false = false <;> simp [check_price, h1, h1', h2]

theorem runSequence_fst (t : ℚ) (steps : List (Option ℚ × Bool))
    (s : MonitorState) : (runSequence t s steps).1 = runStates t s steps := by
  have aux : ∀ (l : List (Option ℚ × Bool)) (s0 : MonitorState) (c : Nat),
      (l.foldl (fun acc st =>
          let r := check_price st.2 st.1 t acc.1
          (r.1, acc.2 + (if r.2 then 1 else 0))) (s0, c)).1 = runStates t s0 l := by
    intro l
    induction l with
    | nil => intro s0 c; rfl
    | cons st rest ih =>
      intro s0 c
      simp only [List.foldl_cons]
      exact ih _ _
  exact aux steps s 0

/-- A single `check_price` step preserves the hysteresis invariant:
whenever the notified flag reads `True`, the most recent observed price
is recorded and below the target. -/
theorem check_price_preserves_inv (t : ℚ) (ok : Bool) (obs : Option ℚ)
    (s : MonitorState)
    (hInv : s.notified.getD false = true → ∃ p, s.last_price = some p ∧ p < t) :
    (check_price ok obs t s).1.notified.getD false = true →
      ∃ p, (check_price ok obs t s).1.last_price = some p ∧ p < t := by
  cases obs with
  | none => exact hInv
  | some p =>
    by_cases h1 : p < t
    · have h1' : ¬ t ≤ p := not_le.mpr h1
      by_cases h2 : s.notified.getD false = false <;>
        cases ok <;> simp [check_price, h1, h1', h2]
    · have h1' : t ≤ p := le_of_not_lt h1
      by_cases h2 : s.notified.getD false = false <;>
        cases ok <;> simp [check_price, h1, h1', h2]

theorem runStates_preserves_inv (t : ℚ) (steps : List (Option ℚ × Bool)) :
    ∀ (s0 : MonitorState),
      (s0.notified.getD false = true → ∃ p, s0.last_price = some p ∧ p < t) →
      ((runStates t s0 steps).notified.getD false = true →
        ∃ p, (runStates t s0 steps).last_price = some p ∧ p < t) := by
  induction steps with
  | nil => intro s0 h; exact h
  | cons st rest ih =>
    intro s0 h
    exact ih _ (check_price_preserves_inv t st.2 st.1 s0 h)

/-- A `check_price` step never clears a set notified flag on an absent
or below-target observation. -/
theorem check_price_keeps_notified (t : ℚ) (ok : Bool) (obs : Option ℚ)
    (s : MonitorState) (hn : s.notified.getD false = true)
    (hobs : obs = none ∨ ∃ p, obs = some p ∧ p < t) :
    (check_price ok obs t s).1.notified.getD false = true := by
  rcases hobs with rfl | ⟨p, rfl, hp⟩
  · exact hn
  · have h1' : ¬ t ≤ p := not_le.mpr hp
    simp [check_price, hn, h1']

/-- C2: in every state reachable from the initial state, the notified
flag reads `True` only while the most recently observed price is
recorded and below the target, and it stays `True` across a further step
whose observation is absent or again below the target. -/
theorem c2_notified_invariant (t : ℚ) (steps : List (Option ℚ × Bool))
    (h : (reachedState t steps).notified.getD false = true) :
    (∃ p, (reachedState t steps).last_price = some p ∧ p < t) ∧
    (∀ (obs : Option ℚ) (ok : Bool),
      (obs = none ∨ ∃ p, obs = some p ∧ p < t) →
      (check_price ok obs t (reachedState t steps)).1.notified.getD false
        = true) := by
  constructor
  · have h0 : initialState.notified.getD false = true →
        ∃ p, initialState.last_price = some p ∧ p < t := by
      intro hc; exact absurd hc (by simp [initialState])
    have := runStates_preserves_inv t steps initialState h0
    rw [reachedState, runSequence_fst] at h ⊢
    exact this h
  · intro obs ok hobs
    exact check_price_keeps_notified t ok obs _ h hobs

theorem c2_notified_invariant_witness :
    (check_price true (some 0.05) 0.11
      (reachedState 0.11 [(some 0.05, true)])).1.notified.getD false
      = true :=
  (c2_notified_invariant 0.11 [(some 0.05, true)]
    (by rw [show (0.05 : ℚ) = mkRat 5 100 from by norm_num [Rat.mkRat_eq_div],
          show (0.11 : ℚ) = mkRat 11 100 from by norm_num [Rat.mkRat_eq_div]]
        decide)).2
    (some 0.05) true (Or.inr ⟨0.05, rfl, by norm_num⟩)

/-- C10: a missing notified key (`none`) is read as `False` by
`state.get(notified_key, False)`: a below-threshold observation attempts
a notification (setting the flag only on success), and an
at-or-above-threshold observation never triggers the recovery-reset
branch (the key stays missing and no attempt is made). -/
theorem c10_missing_notified_key_is_armed (deliver : Bool) (p t : ℚ)
    (lp : Option ℚ) :
    check_price deliver (some p) t ⟨lp, none⟩ =
      (if p < t then
        ((⟨some p, if deliver then some true else none⟩ : MonitorState), true)
      else ((⟨some p, none⟩ : MonitorState), false)) := by
  by_cases h1 : p < t <;> cases deliver <;> simp [check_price, h1]

/-! ### Separator symmetry: the engine commutes with swapping `,` and `.` -/

theorem length_swapSepL (l : List Char) : (swapSepL l).length = l.length := by
  simp [swapSepL]

theorem isDigit_swapSep (c : Char) : (swapSep c).isDigit = c.isDigit := by
  by_cases h1 : c = ','
  · subst h1; decide
  by_cases h2 : c = '.'
  · subst h2; decide
  simp [swapSep, h1, h2]

theorem isSpaceChar_swapSep (c : Char) :
    isSpaceChar (swapSep c) = isSpaceChar c := by
  by_cases h1 : c = ','
  · subst h1; decide
  by_cases h2 : c = '.'
  · subst h2; decide
  simp [swapSep, h1, h2]

theorem swapSep_eq_iff (x c : Char) (h1 : c ≠ ',') (h2 : c ≠ '.') :
    swapSep x = c ↔ x = c := by
  simp only [swapSep]
  split_ifs with hx1 hx2
  · subst hx1; simp [Ne.symm h1, Ne.symm h2]
  · subst hx2; simp [Ne.symm h1, Ne.symm h2]
  · exact Iff.rfl

theorem mem_swapSep (l : List Char) (h : (',' ∈ l) ↔ ('.' ∈ l)) (x : Char) :
    swapSep x ∈ l ↔ x ∈ l := by
  simp only [swapSep]
  split_ifs with hx1 hx2
  · subst hx1; exact h.symm
  · subst hx2; exact h
  · exact Iff.rfl

theorem orElse_map (a b : Option (List Char)) (f : List Char → List Char) :
    (a <|> b).map f = ((a.map f) <|> (b.map f)) := by
  cases a <;> rfl

theorem runRep_swap
    (runA : List Char → List (List Char × Option (List Char)))
    (hA : ∀ s, runA (swapSepL s) = (runA s).map swapResult) :
    ∀ (n : Nat) (s : List Char),
      runRep runA n (swapSepL s) = (runRep runA n s).map swapResult := by
  intro n
  induction n with
  | zero => intro s; rfl
  | succ n ih =>
    intro s
    simp only [runRep, hA, List.map_append]
    congr 1
    · rw [List.flatMap_map, List.map_flatMap]
      congr 1
      funext rc
      simp only [Function.comp, swapResult, length_swapSepL]
      split_ifs with hlen
      · rw [ih rc.1, List.map_map, List.map_map]
        congr 1
        funext rc2
        simp [swapResult, orElse_map]
      · rfl

theorem run_swap : ∀ (re : Re), re.sepSym = true →
    ∀ s, re.run (swapSepL s) = (re.run s).map swapResult := by
  intro re
  induction re with
  | eps => intro _ s; rfl
  | chr c =>
    intro h s
    have hc : c ≠ ',' ∧ c ≠ '.' := by simpa [Re.sepSym] using h
    cases s with
    | nil => rfl
    | cons x xs =>
      simp only [swapSepL, List.map_cons, Re.run]
      by_cases hx : x = c
      · rw [if_pos ((swapSep_eq_iff x c hc.1 hc.2).mpr hx), if_pos hx]
        rfl
      · rw [if_neg (fun hcc => hx ((swapSep_eq_iff x c hc.1 hc.2).mp hcc)),
          if_neg hx]
        rfl
  | digit =>
    intro _ s
    cases s with
    | nil => rfl
    | cons x xs =>
      simp only [swapSepL, List.map_cons, Re.run, isDigit_swapSep]
      split_ifs <;> rfl
  | ws =>
    intro _ s
    cases s with
    | nil => rfl
    | cons x xs =>
      simp only [swapSepL, List.map_cons, Re.run, isSpaceChar_swapSep]
      split_ifs <;> rfl
  | anyOf l =>
    intro h s
    have hc : (',' ∈ l) ↔ ('.' ∈ l) := by simpa [Re.sepSym] using h
    cases s with
    | nil => rfl
    | cons x xs =>
      simp only [swapSepL, List.map_cons, Re.run, mem_swapSep l hc]
      split_ifs <;> rfl
  | notChr c =>
    intro h s
    have hc : c ≠ ',' ∧ c ≠ '.' := by simpa [Re.sepSym] using h
    have hiff := fun x => swapSep_eq_iff x c hc.1 hc.2
    cases s with
    | nil => rfl
    | cons x xs =>
      simp only [swapSepL, List.map_cons, Re.run, ne_eq, hiff]
      split_ifs <;> rfl
  | seq a b iha ihb =>
    intro h s
    have hab : a.sepSym = true ∧ b.sepSym = true := by
      simpa [Re.sepSym, Bool.and_eq_true] using h
    simp only [Re.run, iha hab.1, ihb hab.2]
    rw [List.flatMap_map, List.map_flatMap]
    congr 1
    funext rc
    simp only [Function.comp, swapResult, ihb hab.2, List.map_map]
    congr 1
    funext rc2
    simp [swapResult, orElse_map]
  | opt a iha =>
    intro h s
    have ha : a.sepSym = true := by simpa [Re.sepSym] using h
    simp only [Re.run, iha ha, List.map_append]
    rfl
  | star a iha =>
    intro h s
    have ha : a.sepSym = true := by simpa [Re.sepSym] using h
    simp only [Re.run, length_swapSepL]
    exact runRep_swap a.run (iha ha) s.length s
  | group a iha =>
    intro h s
    have ha : a.sepSym = true := by simpa [Re.sepSym] using h
    simp only [Re.run, iha ha, List.map_map]
    congr 1
    funext rc
    simp [Function.comp, swapResult, length_swapSepL, swapSepL,
      List.map_take]

theorem search_swap (re : Re) (h : re.sepSym = true) :
    ∀ s, re.search (swapSepL s) =
      (re.search s).map (fun c => c.map swapSepL) := by
  intro s
  induction s with
  | nil =>
    have hrun := run_swap re h []
    simp only [show swapSepL ([] : List Char) = [] from rfl] at hrun
    show Re.search re [] = _
    simp only [Re.search]
    conv_lhs => rw [hrun]
    rw [List.head?_map]
    cases (re.run []).head? <;> simp [swapResult]
  | cons x t ih =>
    have hrun := run_swap re h (x :: t)
    simp only [swapSepL, List.map_cons] at hrun ⊢
    simp only [Re.search]
    rw [hrun, List.head?_map]
    cases hh : (re.run (x :: t)).head? with
    | some rc => simp [swapResult]
    | none =>
      simp only [Option.map_none']
      simpa [swapSepL] using ih

theorem normalizeSep_swapSepL (g : List Char) :
    normalizeSep (swapSepL g) = normalizeSep g := by
  simp only [normalizeSep, swapSepL, List.map_map]
  congr 1
  funext c
  simp only [Function.comp]
  by_cases h1 : c = ','
  · subst h1; rfl
  by_cases h2 : c = '.'
  · subst h2; rfl
  · simp [swapSep, h1, h2]

theorem patternLoop_swap (lower : List Char) :
    ∀ (ps : List Re), (∀ p ∈ ps, p.sepSym = true) →
      patternLoop (swapSepL lower) ps = patternLoop lower ps := by
  intro ps
  induction ps with
  | nil => intro _; rfl
  | cons p rest ih =>
    intro hall
    have hp : p.sepSym = true := hall p (by simp)
    have hrest := ih fun q hq => hall q (List.mem_cons_of_mem p hq)
    simp only [patternLoop]
    rw [search_swap p hp lower]
    cases hs : p.search lower with
    | none => simpa using hrest
    | some c =>
      cases c with
      | none => rfl
      | some g =>
        simp only [Option.map_some']
        rw [normalizeSep_swapSepL]
        cases parseFloat (normalizeSep g) <;> simp [hrest]

theorem toNat_ofNat_valid (m : Nat) (h : m < 55296) :
    (Char.ofNat m).toNat = m := by
  have hv : m.isValidChar := Or.inl h
  simp [Char.ofNat, dif_pos hv, Char.ofNatAux, Char.toNat, UInt32.toNat,
    BitVec.toNat_ofNatLt]

theorem toLower_swap_aux (c : Char) (h1 : c ≠ ',') (h2 : c ≠ '.') :
    Char.toLower c ≠ ',' ∧ Char.toLower c ≠ '.' := by
  unfold Char.toLower
  by_cases hr : c.toNat ≥ 65 ∧ c.toNat ≤ 90
  · rw [if_pos hr]
    have hv : (c.toNat + 32) < 55296 := by omega
    constructor <;> intro hc <;>
      { have h := congrArg Char.toNat hc
        rw [toNat_ofNat_valid _ hv] at h
        first
        | rw [show Char.toNat ',' = 44 from rfl] at h
        | rw [show Char.toNat '.' = 46 from rfl] at h
        omega }
  · rw [if_neg hr]
    exact ⟨h1, h2⟩

theorem toLower_swapSep (c : Char) :
    Char.toLower (swapSep c) = swapSep (Char.toLower c) := by
  by_cases h1 : c = ','
  · subst h1; decide
  by_cases h2 : c = '.'
  · subst h2; decide
  · have hne := toLower_swap_aux c h1 h2
    rw [show swapSep c = c from by simp [swapSep, h1, h2]]
    simp [swapSep, hne.1, hne.2]

theorem lowerText_swap (text : String) :
    lowerText (swapSepS text) = swapSepL (lowerText text) := by
  simp only [lowerText, swapSepS, swapSepL, List.map_map]
  congr 1
  funext c
  exact toLower_swapSep c

theorem sepSym_patterns_for (price_type : String) :
    ∀ p ∈ patterns_for price_type, p.sepSym = true := by
  unfold patterns_for
  split_ifs <;> decide

/-- Swapping every `,` with `.` in the input text does not change the
extraction result, for every text and commodity kind. -/
theorem extract_swap (text price_type : String) :
    extract_price_from_text (swapSepS text) price_type =
      extract_price_from_text text price_type := by
  simp only [extract_price_from_text]
  rw [lowerText_swap, patternLoop_swap (lowerText text) _
    (sepSym_patterns_for price_type)]
  cases patternLoop (lowerText text) (patterns_for price_type) with
  | error e => rfl
  | ok v =>
    cases v with
    | some q => rfl
    | none =>
      rw [search_swap fallbackRe (by decide) (lowerText text)]
      cases fallbackRe.search (lowerText text) with
      | none => rfl
      | some c =>
        cases c with
        | none => rfl
        | some g =>
          simp only [Option.map_some']
          rw [normalizeSep_swapSepL]

/-- C6: extraction normalizes the fractional separator: swapping `,`
and `.` throughout the text never changes the result, and in particular
`"0,1067"` and `"0.1067"` followed by a matching unit both extract to
`0.1067` for the corresponding kind. -/
theorem c6_separator_normalization :
    (∀ (text price_type : String),
      extract_price_from_text (swapSepS text) price_type =
        extract_price_from_text text price_type) ∧
    extract_price_from_text textCommaKWh elecKind = .ok (some 0.1067) ∧
    extract_price_from_text textPeriodKWh elecKind = .ok (some 0.1067) ∧
    extract_price_from_text textCommaSmc gasKind = .ok (some 0.1067) ∧
    extract_price_from_text textPeriodSmc gasKind = .ok (some 0.1067) := by
  refine ⟨extract_swap, ?_⟩
  rw [show (0.1067 : ℚ) = mkRat 1067 10000 from by
    norm_num [Rat.mkRat_eq_div]]
  exact ⟨by decide, by decide, by decide, by decide⟩

/-! ### Comment-fragment tolerance (concrete evaluations) -/

/-- C9 (refuted for `€/kW`): with an inline comment fragment between
numeral and unit, extraction succeeds for `€/kWh` (electricity) and
`€/Smc`, `€/mc` (gas), but returns absent for `€/kW`: the `kW` patterns
(lines 77 and 81) contain an uppercase `W` and are matched against the
lowercased text, so they can never match, and the comment fragment
keeps the generic fallback from matching. -/
theorem c9_comment_fragment_units :
    extract_price_from_text textCommentKWh elecKind = .ok (some 0.1067) ∧
    extract_price_from_text textCommentKW elecKind = .ok none ∧
    extract_price_from_text textCommentSmc gasKind = .ok (some 0.8567) ∧
    extract_price_from_text textCommentMc gasKind = .ok (some 0.8567) := by
  rw [show (0.1067 : ℚ) = mkRat 1067 10000 from by
      norm_num [Rat.mkRat_eq_div],
    show (0.8567 : ℚ) = mkRat 8567 10000 from by
      norm_num [Rat.mkRat_eq_div]]
  exact ⟨by decide, by decide, by decide, by decide⟩

/-! ### Capture soundness: every match of the patterns captures a
well-formed numeral, so the `float` parse never fails and `group(1)`
always participates -/

theorem digit_run_char (s : List Char) (rc : List Char × Option (List Char))
    (h : rc ∈ Re.digit.run s) :
    ∃ x xs, s = x :: xs ∧ x.isDigit = true ∧ rc = (xs, none) := by
  cases s with
  | nil => simp [Re.run] at h
  | cons x xs =>
    simp only [Re.run] at h
    split_ifs at h with hd
    · simp only [List.mem_singleton] at h
      exact ⟨x, xs, rfl, hd, h⟩
    · simp at h

theorem runRep_digit_run (n : Nat) :
    ∀ (s : List Char) (rc : List Char × Option (List Char)),
      rc ∈ runRep Re.digit.run n s →
      ∃ ds, s = ds ++ rc.1 ∧ ds.all Char.isDigit = true ∧ rc.2 = none := by
  induction n with
  | zero =>
    intro s rc h
    simp only [runRep, List.mem_singleton] at h
    exact ⟨[], by simp [h], by simp, by simp [h]⟩
  | succ n ih =>
    intro s rc h
    simp only [runRep] at h
    rcases List.mem_append.mp h with h1 | h1
    · rcases List.mem_flatMap.mp h1 with ⟨rc1, hrc1, hmem⟩
      obtain ⟨x, xs, rfl, hx, rfl⟩ := digit_run_char s rc1 hrc1
      rw [if_pos (by simp)] at hmem
      rcases List.mem_map.mp hmem with ⟨rc2, hrc2, rfl⟩
      obtain ⟨ds, rfl, hds, hc⟩ := ih xs rc2 hrc2
      exact ⟨x :: ds, by simp, by simp [hx, hds], by simp [hc]⟩
    · simp only [List.mem_singleton] at h1
      exact ⟨[], by simp [h1], by simp, by simp [h1]⟩

theorem plus_digit_run (s : List Char) (rc : List Char × Option (List Char))
    (h : rc ∈ (Re.plus .digit).run s) :
    ∃ ds, s = ds ++ rc.1 ∧ ds ≠ [] ∧ ds.all Char.isDigit = true ∧
      rc.2 = none := by
  simp only [Re.plus, Re.run] at h
  rcases List.mem_flatMap.mp h with ⟨rc1, hrc1, hmem⟩
  obtain ⟨x, xs, rfl, hx, rfl⟩ := digit_run_char _ rc1 hrc1
  rcases List.mem_map.mp hmem with ⟨rc2, hrc2, rfl⟩
  obtain ⟨ds, rfl, hds, hc⟩ := runRep_digit_run xs.length xs rc2 hrc2
  exact ⟨x :: ds, by simp, by simp, by simp [hx, hds], by simp [hc]⟩

theorem anyOf_run_char (l : List Char) (s : List Char)
    (rc : List Char × Option (List Char)) (h : rc ∈ (Re.anyOf l).run s) :
    ∃ x xs, s = x :: xs ∧ x ∈ l ∧ rc = (xs, none) := by
  cases s with
  | nil => simp [Re.run] at h
  | cons x xs =>
    simp only [Re.run] at h
    split_ifs at h with hd
    · simp only [List.mem_singleton] at h
      exact ⟨x, xs, rfl, hd, h⟩
    · simp at h

theorem numInner_run (s : List Char) (rc : List Char × Option (List Char))
    (h : rc ∈ (Re.seq (Re.plus .digit)
      (.seq (.anyOf [',', '.']) (Re.plus .digit))).run s) :
    ∃ d1 sep d2, s = (d1 ++ sep :: d2) ++ rc.1 ∧ d1 ≠ [] ∧ d2 ≠ [] ∧
      d1.all Char.isDigit = true ∧ d2.all Char.isDigit = true ∧
      (sep = ',' ∨ sep = '.') ∧ rc.2 = none := by
  simp only [Re.run] at h
  rcases List.mem_flatMap.mp h with ⟨rc1, hrc1, hmem⟩
  obtain ⟨d1, rfl, hne1, hdig1, hc1⟩ := plus_digit_run s rc1 hrc1
  rcases List.mem_map.mp hmem with ⟨rc2, hrc2, rfl⟩
  rcases List.mem_flatMap.mp hrc2 with ⟨rc3, hrc3, hmem3⟩
  obtain ⟨sep, xs, heq, hsep, rfl⟩ := anyOf_run_char _ _ rc3 hrc3
  rcases List.mem_map.mp hmem3 with ⟨rc4, hrc4, rfl⟩
  obtain ⟨d2, rfl, hne2, hdig2, hc4⟩ := plus_digit_run xs rc4 hrc4
  refine ⟨d1, sep, d2, ?_, hne1, hne2, hdig1, hdig2, ?_, ?_⟩
  · rw [heq]; simp
  · simpa using hsep
  · simp [hc1, hc4]

theorem numeralRe_run (s : List Char)
    (rc : List Char × Option (List Char)) (h : rc ∈ numeralRe.run s) :
    ∃ g, rc.2 = some g ∧ ShapedNumeral g := by
  simp only [numeralRe, Re.run] at h
  rcases List.mem_map.mp h with ⟨rc1, hrc1, rfl⟩
  obtain ⟨d1, sep, d2, heq, hne1, hne2, hdig1, hdig2, hsep, _⟩ :=
    numInner_run s rc1 hrc1
  refine ⟨d1 ++ sep :: d2, ?_, d1, sep, d2, rfl, hne1, hne2, hdig1, hdig2,
    hsep⟩
  have heq' : s = (d1 ++ sep :: d2) ++ rc1.1 := by rw [heq]
  have hlen : s.length - rc1.1.length = (d1 ++ sep :: d2).length := by
    rw [heq']
    simp only [List.length_append]
    omega
  rw [hlen, heq', List.take_left]

theorem runRep_none
    (runA : List Char → List (List Char × Option (List Char)))
    (hA : ∀ s rc, rc ∈ runA s → rc.2 = none) :
    ∀ (n : Nat) (s : List Char) (rc : List Char × Option (List Char)),
      rc ∈ runRep runA n s → rc.2 = none := by
  intro n
  induction n with
  | zero =>
    intro s rc h
    simp only [runRep, List.mem_singleton] at h
    simp [h]
  | succ n ih =>
    intro s rc h
    simp only [runRep] at h
    rcases List.mem_append.mp h with h1 | h1
    · rcases List.mem_flatMap.mp h1 with ⟨rc1, hrc1, hmem⟩
      split_ifs at hmem with hlen
      · rcases List.mem_map.mp hmem with ⟨rc2, hrc2, rfl⟩
        simp [hA s rc1 hrc1, ih rc1.1 rc2 hrc2]
      · simp only [List.mem_singleton] at hmem
        rw [hmem]
        exact hA s rc1 hrc1
    · simp only [List.mem_singleton] at h1
      simp [h1]

theorem noGroup_run : ∀ (re : Re), re.noGroup = true →
    ∀ (s : List Char) (rc : List Char × Option (List Char)),
      rc ∈ re.run s → rc.2 = none := by
  intro re
  induction re with
  | eps =>
    intro _ s rc h
    simp only [Re.run, List.mem_singleton] at h
    simp [h]
  | chr c =>
    intro _ s rc h
    cases s with
    | nil => simp [Re.run] at h
    | cons x xs =>
      simp only [Re.run] at h
      split_ifs at h
      · simp only [List.mem_singleton] at h; simp [h]
      · simp at h
  | digit =>
    intro _ s rc h
    obtain ⟨x, xs, _, _, rfl⟩ := digit_run_char s rc h
    rfl
  | ws =>
    intro _ s rc h
    cases s with
    | nil => simp [Re.run] at h
    | cons x xs =>
      simp only [Re.run] at h
      split_ifs at h
      · simp only [List.mem_singleton] at h; simp [h]
      · simp at h
  | anyOf l =>
    intro _ s rc h
    obtain ⟨x, xs, _, _, rfl⟩ := anyOf_run_char l s rc h
    rfl
  | notChr c =>
    intro _ s rc h
    cases s with
    | nil => simp [Re.run] at h
    | cons x xs =>
      simp only [Re.run] at h
      split_ifs at h
      · simp only [List.mem_singleton] at h; simp [h]
      · simp at h
  | seq a b iha ihb =>
    intro hg s rc h
    have hab : a.noGroup = true ∧ b.noGroup = true := by
      simpa [Re.noGroup, Bool.and_eq_true] using hg
    simp only [Re.run] at h
    rcases List.mem_flatMap.mp h with ⟨rc1, hrc1, hmem⟩
    rcases List.mem_map.mp hmem with ⟨rc2, hrc2, rfl⟩
    simp [iha hab.1 s rc1 hrc1, ihb hab.2 rc1.1 rc2 hrc2]
  | opt a iha =>
    intro hg s rc h
    have ha : a.noGroup = true := by simpa [Re.noGroup] using hg
    simp only [Re.run] at h
    rcases List.mem_append.mp h with h1 | h1
    · exact iha ha s rc h1
    · simp only [List.mem_singleton] at h1; simp [h1]
  | star a iha =>
    intro hg s rc h
    have ha : a.noGroup = true := by simpa [Re.noGroup] using hg
    simp only [Re.run] at h
    exact runRep_none a.run (iha ha) s.length s rc h
  | group a iha =>
    intro hg
    simp [Re.noGroup] at hg

theorem oneNumGroup_run : ∀ (re : Re), re.oneNumGroup = true →
    ∀ (s : List Char) (rc : List Char × Option (List Char)),
      rc ∈ re.run s → ∃ g, rc.2 = some g ∧ ShapedNumeral g := by
  intro re
  induction re with
  | eps => intro hg; simp [Re.oneNumGroup] at hg
  | chr c => intro hg; simp [Re.oneNumGroup] at hg
  | digit => intro hg; simp [Re.oneNumGroup] at hg
  | ws => intro hg; simp [Re.oneNumGroup] at hg
  | anyOf l => intro hg; simp [Re.oneNumGroup] at hg
  | notChr c => intro hg; simp [Re.oneNumGroup] at hg
  | opt a iha => intro hg; simp [Re.oneNumGroup] at hg
  | star a iha => intro hg; simp [Re.oneNumGroup] at hg
  | group a iha =>
    intro hg s rc h
    have hng : Re.group a = numeralRe := by
      simpa [Re.oneNumGroup] using hg
    rw [hng] at h
    exact numeralRe_run s rc h
  | seq a b iha ihb =>
    intro hg s rc h
    simp only [Re.run] at h
    rcases List.mem_flatMap.mp h with ⟨rc1, hrc1, hmem⟩
    rcases List.mem_map.mp hmem with ⟨rc2, hrc2, rfl⟩
    have hcases : (a.oneNumGroup = true ∧ b.noGroup = true) ∨
        (a.noGroup = true ∧ b.oneNumGroup = true) := by
      have := hg
      simp only [Re.oneNumGroup, Bool.or_eq_true, Bool.and_eq_true] at this
      exact this
    rcases hcases with ⟨ha, hb⟩ | ⟨ha, hb⟩
    · obtain ⟨g, hg1, hshape⟩ := iha ha s rc1 hrc1
      exact ⟨g, by simp [hg1], hshape⟩
    · obtain ⟨g, hg2, hshape⟩ := ihb hb rc1.1 rc2 hrc2
      have h1 : rc1.2 = none := noGroup_run a ha s rc1 hrc1
      exact ⟨g, by simp [h1, hg2], hshape⟩

theorem oneNumGroup_search (re : Re) (h : re.oneNumGroup = true) :
    ∀ (s : List Char) (c : Option (List Char)), re.search s = some c →
      ∃ g, c = some g ∧ ShapedNumeral g := by
  intro s
  induction s with
  | nil =>
    intro c hs
    simp only [Re.search] at hs
    cases hr : (re.run []).head? with
    | none => rw [hr] at hs; simp at hs
    | some rc =>
      rw [hr] at hs
      simp only [Option.map_some'] at hs
      have hmem : rc ∈ re.run [] :=
        List.mem_of_mem_head? (by simp [hr])
      obtain ⟨g, hg, hshape⟩ := oneNumGroup_run re h [] rc hmem
      exact ⟨g, by cases hs; exact hg, hshape⟩
  | cons x t ih =>
    intro c hs
    simp only [Re.search] at hs
    cases hr : (re.run (x :: t)).head? with
    | none => rw [hr] at hs; exact ih c hs
    | some rc =>
      rw [hr] at hs
      have hmem : rc ∈ re.run (x :: t) :=
        List.mem_of_mem_head? (by simp [hr])
      obtain ⟨g, hg, hshape⟩ := oneNumGroup_run re h (x :: t) rc hmem
      exact ⟨g, by cases hs; exact hg, hshape⟩

theorem normalizeSep_digits (l : List Char) (h : l.all Char.isDigit = true) :
    normalizeSep l = l := by
  induction l with
  | nil => rfl
  | cons c rest ih =>
    simp only [List.all_cons, Bool.and_eq_true] at h
    have hc : c ≠ ',' := by
      intro hc
      rw [hc] at h
      simp at h
    simp only [normalizeSep, List.map_cons, if_neg hc]
    exact congrArg (c :: ·) (ih h.2)

theorem splitDot_append (d1 d2 : List Char) (h : '.' ∉ d1) :
    splitDot (d1 ++ '.' :: d2) = some (d1, d2) := by
  induction d1 with
  | nil => simp [splitDot]
  | cons c rest ih =>
    have hc : c ≠ '.' := fun hcc => h (by simp [hcc])
    have hrest : '.' ∉ rest := fun hm => h (by simp [hm])
    simp only [List.cons_append, splitDot, if_neg hc]
    rw [show rest.append ('.' :: d2) = rest ++ '.' :: d2 from rfl, ih hrest]
    rfl

theorem parseFloat_shaped (g : List Char) (h : ShapedNumeral g) :
    ∃ v, parseFloat (normalizeSep g) = some v := by
  obtain ⟨d1, sep, d2, rfl, hne1, hne2, hdig1, hdig2, hsep⟩ := h
  have hsep' : (if sep = ',' then '.' else sep) = '.' := by
    rcases hsep with rfl | rfl <;> simp
  have hnorm : normalizeSep (d1 ++ sep :: d2) = d1 ++ '.' :: d2 := by
    simp only [normalizeSep, List.map_append, List.map_cons]
    rw [show List.map (fun c => if c = ',' then '.' else c) d1
        = normalizeSep d1 from rfl,
      show List.map (fun c => if c = ',' then '.' else c) d2
        = normalizeSep d2 from rfl,
      normalizeSep_digits d1 hdig1, normalizeSep_digits d2 hdig2, hsep']
  have hnodot : '.' ∉ d1 := by
    intro hm
    have := List.all_eq_true.mp hdig1 _ hm
    simp at this
  rw [hnorm]
  simp only [parseFloat, splitDot_append d1 d2 hnodot]
  rw [if_pos ⟨hne1, hne2, hdig1, hdig2⟩]
  exact ⟨_, rfl⟩

theorem oneNumGroup_patterns_for (price_type : String) :
    ∀ p ∈ patterns_for price_type, p.oneNumGroup = true := by
  unfold patterns_for
  split_ifs <;> decide

theorem patternLoop_eq_findSome (lower : List Char) :
    ∀ (ps : List Re), (∀ p ∈ ps, p.oneNumGroup = true) →
      patternLoop lower ps = .ok (ps.findSome? (searchValue lower)) := by
  intro ps
  induction ps with
  | nil => intro _; rfl
  | cons p rest ih =>
    intro hall
    have hp : p.oneNumGroup = true := hall p (by simp)
    have hrest := ih fun q hq => hall q (List.mem_cons_of_mem p hq)
    simp only [patternLoop, List.findSome?_cons]
    cases hs : p.search lower with
    | none => simp [searchValue, hs, hrest]
    | some c =>
      obtain ⟨g, rfl, hshape⟩ := oneNumGroup_search p hp lower c hs
      obtain ⟨v, hv⟩ := parseFloat_shaped g hshape
      simp [searchValue, hs, hv]

/-- `extract_price_from_text` equals the first-success scan of the
kind's pattern list, falling back to the generic pattern: the earliest
pattern in declared order whose search-and-parse succeeds wins, and the
fallback is consulted only when every kind-specific pattern fails. -/
theorem extract_eq_findSome (text price_type : String) :
    extract_price_from_text text price_type =
      .ok ((patterns_for price_type).findSome?
          (searchValue (lowerText text)) <|>
        searchValue (lowerText text) fallbackRe) := by
  simp only [extract_price_from_text]
  rw [patternLoop_eq_findSome (lowerText text) _
    (oneNumGroup_patterns_for price_type)]
  cases hf : (patterns_for price_type).findSome?
      (searchValue (lowerText text)) with
  | some v => rfl
  | none =>
    cases hs : fallbackRe.search (lowerText text) with
    | none => simp [searchValue, hs]
    | some c =>
      obtain ⟨g, rfl, hshape⟩ :=
        oneNumGroup_search fallbackRe (by decide) _ c hs
      obtain ⟨v, hv⟩ := parseFloat_shaped g hshape
      simp [searchValue, hs, hv]

/-- C7: pattern ordering is significant and first-match wins:
extraction equals the first-success scan of the declared pattern list
with the generic fallback consulted last, and on a text where both the
strict first electricity pattern and the generic fallback match with
different numerals, the strict pattern's numeral is returned. -/
theorem c7_first_match_wins :
    (∀ (text price_type : String),
      extract_price_from_text text price_type =
        .ok ((patterns_for price_type).findSome?
            (searchValue (lowerText text)) <|>
          searchValue (lowerText text) fallbackRe)) ∧
    extract_price_from_text textStrictVsFallback elecKind =
      .ok (some 0.1) ∧
    searchValue (lowerText textStrictVsFallback) elec1 = some 0.1 ∧
    searchValue (lowerText textStrictVsFallback) fallbackRe = some 9.9 := by
  refine ⟨extract_eq_findSome, ?_, ?_, ?_⟩
  · rw [show (0.1 : ℚ) = mkRat 1 10 from by norm_num [Rat.mkRat_eq_div]]
    decide
  · rw [show (0.1 : ℚ) = mkRat 1 10 from by norm_num [Rat.mkRat_eq_div]]
    decide
  · rw [show (9.9 : ℚ) = mkRat 99 10 from by norm_num [Rat.mkRat_eq_div]]
    decide

/-- C8: extraction is total: for every input text and commodity kind it
returns `Except.ok` of an optional decimal — the uncaught-exception
paths (a non-participating `group(1)`, or a fallback numeral that fails
to parse at line 96) are unreachable, and nothing else can fail. -/
theorem c8_extraction_total (text price_type : String) :
    ∃ r : Option ℚ, extract_price_from_text text price_type = .ok r :=
  ⟨_, extract_eq_findSome text price_type⟩
